import Mathlib

/-!
Verification development for the location extraction, normalization and
hierarchy-resolution engine of the supply-chain risk report parser
(`RiskReportParser` in `main.py`).

The Python code is shallowly embedded:
  - Python dicts become association lists (`List (String × String)`) with
    `dictSet` modelling `d[k] = v` (replace value of an existing key in
    place, otherwise append) and `List.lookup` modelling `d[k]` / `k in d`.
  - `re`-based match extraction is abstracted: the per-match bookkeeping of
    `extract_location_relationships` (suffix stripping, normalization,
    validity and cycle guards, insertion) is embedded exactly, folded over
    the list of raw `(child, parent)` group pairs the regex scan yields
    (pattern 4's groups already swapped, as in the source).
  - The floating-point haversine distance `_calculate_distance` is
    abstracted as a distance-function parameter; the comparison against the
    100 km threshold and everything downstream is embedded exactly.
-/

/-- Set `vague_locations` from `normalize_location`: tokens filtered to `None`. -/
def vague_locations : List String :=
  ["中部", "沿海地区", "国内", "海外", "东南亚", "广汽", "本田", "安世"]

/-- Dict `abbreviation_map` from `normalize_location`. -/
def abbreviation_map : List (String × String) :=
  [("印尼", "印度尼西亚"), ("欧盟", "欧洲")]

/-- Embedding of `RiskReportParser.normalize_location`. -/
def normalize_location (location : String) : Option String :=
  if location ∈ vague_locations then none
  else
    match List.lookup location abbreviation_map with
    | some full => some full
    | none => some location

/-- Static dict `location_hierarchy` from `filter_redundant_locations`
(region to country, in source order). -/
def location_hierarchy : List (String × String) :=
  [("东爪哇", "印度尼西亚"), ("塞梅鲁", "印度尼西亚"), ("鹿儿岛", "日本"),
   ("福岛", "日本"), ("东莞", "中国"), ("莱茵河", "德国")]

/-- Dict `manual_region_to_region` from `filter_redundant_locations`. -/
def manual_region_to_region : List (String × String) :=
  [("塞梅鲁", "东爪哇")]

/-- Python dict assignment `d[k] = v`: replace the value of an existing key
in place, otherwise append the pair at the end. -/
def dictSet : List (String × String) → String → String → List (String × String)
  | [], k, v => [(k, v)]
  | (k', v') :: rest, k, v =>
      if k' = k then (k, v) :: rest else (k', v') :: dictSet rest k v

/-- Python dict merge `{**base, **overlay}`: entries of `overlay` win on key
collision. -/
def dictMerge (base overlay : List (String × String)) : List (String × String) :=
  overlay.foldl (fun d kv => dictSet d kv.1 kv.2) base

/-- Membership test `region in locations` used when deciding whether a country
has a more specific region present (`country_to_regions` in the source is the
reverse of `location_hierarchy`; only existence of a present region is ever
consumed). -/
def has_specific_region (loc : String) (locations : List String) : Bool :=
  location_hierarchy.any (fun rc => rc.2 == loc && decide (rc.1 ∈ locations))

/-- One iteration of the `for loc in locations` loop of
`filter_redundant_locations` (lines 310-345), acting on the accumulator
`filtered`.  `region_to_region` is the merged manual/dynamic dict. -/
def filterStep (region_to_region : List (String × String)) (locations : List String)
    (filtered : List String) (loc : String) : List String :=
  match List.lookup loc region_to_region with
  | some parent_region =>
      if parent_region ∈ locations then filtered
      else if loc ∈ filtered then filtered else filtered ++ [loc]
  | none =>
      match List.lookup loc location_hierarchy with
      | some country =>
          if country ∈ locations then
            (if loc ∈ filtered then filtered else filtered ++ [loc])
          else
            (if loc ∈ filtered then filtered else filtered ++ [loc])
      | none =>
          if has_specific_region loc locations then filtered
          else if loc ∈ filtered then filtered else filtered ++ [loc]

/-- The `filtered` list built by `filter_redundant_locations` before the
degenerate-case fallback.  The dynamically extracted relations are a
parameter (`dynamic_region_to_region` in the source); the merged dict is
`{**manual_region_to_region, **dynamic_region_to_region}`. -/
def filterCore (dynamic : List (String × String)) (locations : List String) : List String :=
  List.foldl (filterStep (dictMerge manual_region_to_region dynamic) locations) [] locations

/-- Embedding of `RiskReportParser.filter_redundant_locations`. -/
def filter_redundant_locations (dynamic : List (String × String))
    (locations : List String) : List String :=
  if locations = [] then locations
  else if filterCore dynamic locations = [] then locations
  else filterCore dynamic locations

/-- The effective child-to-parent relation consulted by one
`filter_redundant_locations` call: the merged manual/dynamic dict is checked
first (its entries win), the static `location_hierarchy` is the fallback. -/
def effective_parent (dynamic : List (String × String)) (loc : String) : Option String :=
  match List.lookup loc (dictMerge manual_region_to_region dynamic) with
  | some p => some p
  | none => List.lookup loc location_hierarchy

/- ## Basic dictionary lemmas -/

theorem lookup_dictSet (d : List (String × String)) (k v x : String) :
    List.lookup x (dictSet d k v) = if x = k then some v else List.lookup x d := by
  induction d with
  | nil =>
      by_cases h : x = k
      · simp [dictSet, List.lookup, beq_iff_eq, h]
      · simp [dictSet, List.lookup, beq_eq_false_iff_ne.mpr h, h]
  | cons p rest ih =>
      obtain ⟨k', v'⟩ := p
      by_cases hk : k' = k
      · subst hk
        by_cases h : x = k'
        · simp [dictSet, List.lookup, beq_iff_eq, h]
        · simp [dictSet, List.lookup, beq_eq_false_iff_ne.mpr h, h]
      · by_cases h : x = k'
        · have hxk : x ≠ k := fun hh => hk ((h.symm.trans hh))
          simp [dictSet, hk, List.lookup, beq_iff_eq, h, hxk]
        · simp [dictSet, hk, List.lookup, beq_eq_false_iff_ne.mpr h, ih]

theorem lookup_dictMerge (base overlay : List (String × String)) (x : String)
    (h : ∀ p ∈ overlay, p.1 ≠ x) :
    List.lookup x (dictMerge base overlay) = List.lookup x base := by
  induction overlay generalizing base with
  | nil => rfl
  | cons q rest ih =>
      have hq : q.1 ≠ x := h q (by simp)
      have hstep := ih (dictSet base q.1 q.2) (fun p hp => h p (by simp [hp]))
      have : List.lookup x (dictSet base q.1 q.2) = List.lookup x base := by
        rw [lookup_dictSet, if_neg (Ne.symm hq)]
      simpa [dictMerge, List.foldl, this] using hstep

/- ## C7 / C8 : normalization -/

/-- C7: `normalize_location` is total and pure; excluded tokens map to
`none`; the registered aliases map to their targets; everything else passes
through unchanged. -/
theorem c7_normalize_contract (raw : String) :
    (raw ∈ vague_locations → normalize_location raw = none) ∧
    (normalize_location "印尼" = some "印度尼西亚") ∧
    (normalize_location "欧盟" = some "欧洲") ∧
    (raw ∉ vague_locations → raw ≠ "印尼" → raw ≠ "欧盟" →
      normalize_location raw = some raw) := by
  refine ⟨fun h => by simp [normalize_location, h], by decide, by decide, ?_⟩
  intro hv h1 h2
  simp [normalize_location, hv, abbreviation_map, List.lookup,
    beq_eq_false_iff_ne.mpr h1, beq_eq_false_iff_ne.mpr h2]

theorem c7_normalize_contract_witness :
    normalize_location "中部" = none ∧ normalize_location "印尼" = some "印度尼西亚" ∧
    normalize_location "东莞" = some "东莞" :=
  ⟨(c7_normalize_contract "中部").1 (by decide),
   (c7_normalize_contract "中部").2.1,
   (c7_normalize_contract "东莞").2.2.2 (by decide) (by decide) (by decide)⟩

/-- C8: normalization is idempotent on every token it does not filter out. -/
theorem c8_normalize_idempotent (x y : String)
    (h : normalize_location x = some y) : normalize_location y = some y := by
  by_cases hv : x ∈ vague_locations
  · simp [normalize_location, hv] at h
  · by_cases h1 : x = "印尼"
    · subst h1
      have hx : normalize_location "印尼" = some "印度尼西亚" := by decide
      rw [hx] at h
      obtain rfl : "印度尼西亚" = y := by simpa using h
      decide
    · by_cases h2 : x = "欧盟"
      · subst h2
        have hx : normalize_location "欧盟" = some "欧洲" := by decide
        rw [hx] at h
        obtain rfl : "欧洲" = y := by simpa using h
        decide
      · have hx : normalize_location x = some x := by
          simp [normalize_location, hv, abbreviation_map, List.lookup,
            beq_eq_false_iff_ne.mpr h1, beq_eq_false_iff_ne.mpr h2]
        rw [hx] at h
        obtain rfl : x = y := by simpa using h
        exact hx

theorem c8_normalize_idempotent_witness :
    normalize_location "印度尼西亚" = some "印度尼西亚" :=
  c8_normalize_idempotent "印尼" "印度尼西亚" (by decide)

/- ## C9 : non-empty output -/

/-- C9: on a non-empty input list the redundancy filter never returns an
empty list: if the filtering pass drops everything, the original input is
returned. -/
theorem c9_filter_nonempty (dynamic : List (String × String))
    (locations : List String) (h : locations ≠ []) :
    filter_redundant_locations dynamic locations ≠ [] := by
  unfold filter_redundant_locations
  rw [if_neg h]
  by_cases hc : filterCore dynamic locations = []
  · rw [if_pos hc]; exact h
  · rw [if_neg hc]; exact hc

theorem c9_filter_nonempty_witness :
    filter_redundant_locations [] ["东莞", "中国"] ≠ [] :=
  c9_filter_nonempty [] ["东莞", "中国"] (by decide)

/- ## C1 : which parents cause a drop -/

/-- C1 is refuted: `东莞` has the parent `中国` in the effective map (via the
static region-to-country table), `中国` is also in the input, the filtering
pass drops something but not everything, yet `东莞` is still in the result
(the code keeps the specific region and instead drops the country). -/
theorem c1_counterexample :
    effective_parent [] "东莞" = some "中国" ∧
    "东莞" ∈ (["东莞", "中国"] : List String) ∧
    "中国" ∈ (["东莞", "中国"] : List String) ∧
    filterCore [] ["东莞", "中国"] ≠ [] ∧
    "东莞" ∈ filter_redundant_locations [] ["东莞", "中国"] := by decide

/-- C1 as amended: only the merged manual/dynamic region-to-region dict
causes a child with a present parent to be dropped.  If `L` maps to `P`
there and `P` is in the input, then `L` is absent from the result, except
in the degenerate all-dropped fallback. -/
theorem c1_merged_child_dropped (dynamic : List (String × String))
    (locations : List String) (L P : String)
    (hLP : List.lookup L (dictMerge manual_region_to_region dynamic) = some P)
    (hP : P ∈ locations)
    (hcore : filterCore dynamic locations ≠ []) :
    L ∉ filter_redundant_locations dynamic locations := by
  have hne : locations ≠ [] := by
    intro h; rw [h] at hP; simp at hP
  have hres : filter_redundant_locations dynamic locations = filterCore dynamic locations := by
    unfold filter_redundant_locations
    rw [if_neg hne, if_neg hcore]
  rw [hres]
  unfold filterCore
  have key : ∀ (ls : List String) (acc : List String), L ∉ acc →
      L ∉ List.foldl (filterStep (dictMerge manual_region_to_region dynamic) locations) acc ls := by
    intro ls
    induction ls with
    | nil => intro acc h; simpa using h
    | cons loc rest ih =>
        intro acc hacc
        rw [List.foldl_cons]
        apply ih
        by_cases hl : loc = L
        · subst hl
          simp [filterStep, hLP, hP, hacc]
        · unfold filterStep
          rcases h1 : List.lookup loc (dictMerge manual_region_to_region dynamic) with _ | p
          · rcases h2 : List.lookup loc location_hierarchy with _ | c
            · by_cases h3 : has_specific_region loc locations = true
              · simp [h3, hacc]
              · simp only [Bool.not_eq_true] at h3
                by_cases h4 : loc ∈ acc <;>
                  simp [h3, h4, hacc, List.mem_append, Ne.symm hl]
            · by_cases h3 : c ∈ locations <;> by_cases h4 : loc ∈ acc <;>
                simp [h3, h4, hacc, List.mem_append, Ne.symm hl]
          · by_cases h3 : p ∈ locations
            · simp [h3, hacc]
            · by_cases h4 : loc ∈ acc <;>
                simp [h3, h4, hacc, List.mem_append, Ne.symm hl]
  exact key locations [] (by simp)

theorem c1_merged_child_dropped_witness :
    "塞梅鲁" ∉ filter_redundant_locations [] ["塞梅鲁", "东爪哇"] :=
  c1_merged_child_dropped [] ["塞梅鲁", "东爪哇"] "塞梅鲁" "东爪哇"
    (by decide) (by decide) (by decide)

/- ## Relationship extractor (`extract_location_relationships`) -/

/-- Single-character administrative suffixes of the cleanup regex
`(?:火山|山|地区|市|省|县|区|镇|村)$` in `extract_location_relationships`. -/
def admin_single_suffixes : List Char :=
  ['山', '市', '省', '县', '区', '镇', '村']

/-- Suffix cleanup on the character list: the regex removes a trailing
`火山` or `地区` (two characters, tried at the earlier position first) or
otherwise a trailing single-character suffix. -/
def stripAdminChars (cs : List Char) : List Char :=
  match cs.reverse with
  | c1 :: c2 :: rest =>
      if (c2 = '火' ∧ c1 = '山') ∨ (c2 = '地' ∧ c1 = '区') then rest.reverse
      else if c1 ∈ admin_single_suffixes then (c2 :: rest).reverse
      else cs
  | [c1] => if c1 ∈ admin_single_suffixes then [] else cs
  | [] => cs

/-- Suffix cleanup `re.sub(r'(?:火山|山|地区|市|省|县|区|镇|村)$', '', s)`
applied to each extracted span (the spans cannot contain whitespace, so the
following `.strip()` is the identity). -/
def strip_admin_suffix (s : String) : String :=
  String.mk (stripAdminChars s.data)

/-- Processing of one raw regex match `(child, parent)` inside the textual
scan of `extract_location_relationships` (lines 122-146): strip suffixes,
normalize, validity checks (Python truthiness also rejects the empty
string), the reverse-pair guard, then dict insertion. -/
def process_relationship_match (relationships : List (String × String))
    (m : String × String) : List (String × String) :=
  let child := strip_admin_suffix m.1
  let parent := strip_admin_suffix m.2
  match normalize_location child, normalize_location parent with
  | some child_n, some parent_n =>
      if child_n ≠ "" ∧ parent_n ≠ "" ∧ child_n ≠ parent_n ∧
          child_n ≠ "未明确" ∧ parent_n ≠ "未明确" then
        if List.lookup parent_n relationships ≠ some child_n then
          dictSet relationships child_n parent_n
        else relationships
      else relationships
  | _, _ => relationships

/-- The textual-pattern phase of `extract_location_relationships`, folded
over the raw `(child, parent)` match pairs produced by the four patterns in
scan order (the regex engine itself is abstracted; pattern 4's group swap
is already applied to the pairs). -/
def record_textual_relations (ms : List (String × String)) : List (String × String) :=
  ms.foldl process_relationship_match []

/-- Key set of the coordinate table `_get_all_location_coords` (the values
are floating-point latitude/longitude pairs, consumed only through the
abstracted distance function). -/
def location_coords_keys : List String :=
  ["荷兰", "中国", "日本", "美国", "欧盟", "欧洲", "德国", "法国", "英国",
   "澳大利亚", "韩国", "印度", "越南", "印度尼西亚", "鹿儿岛", "塞梅鲁",
   "东爪哇", "东莞", "福岛", "莱茵河"]

/-- Specificity judgment of the proximity fallback (lines 192-199): longer
name, or name containing an administrative-level suffix. -/
def is_more_specific (a b : String) : Bool :=
  decide (b.length < a.length) ||
    (['省', '市', '县', '区', '州'].any (fun suf => a.data.contains suf))

/-- Guard of the proximity fallback (lines 171-183): a pair reaches the
distance computation only if the two locations differ, neither is a key of
the relationship dict built so far, and both have registered coordinates. -/
def proximity_eligible (relationships : List (String × String))
    (loc1 loc2 : String) : Bool :=
  (loc1 != loc2) && (List.lookup loc1 relationships).isNone &&
    (List.lookup loc2 relationships).isNone &&
    location_coords_keys.contains loc1 && location_coords_keys.contains loc2

/-- Processing of one unordered pair in the proximity fallback (lines
171-204).  `dist` abstracts the floating-point haversine distance
`_calculate_distance` on the registered coordinates. -/
def proximity_pair_step (dist : String → String → ℚ)
    (relationships : List (String × String)) (loc1 loc2 : String) :
    List (String × String) :=
  if proximity_eligible relationships loc1 loc2 then
    if dist loc1 loc2 < 100 then
      if is_more_specific loc2 loc1 && !is_more_specific loc1 loc2 then
        dictSet relationships loc1 loc2
      else if is_more_specific loc1 loc2 && !is_more_specific loc2 loc1 then
        dictSet relationships loc2 loc1
      else relationships
    else relationships
  else relationships

/-- The double loop `for i, loc1 in enumerate(...): for loc2 in list[i+1:]`
of the proximity fallback, over the report's co-mentioned location list. -/
def proximity_pass (dist : String → String → ℚ) :
    List (String × String) → List String → List (String × String)
  | relationships, [] => relationships
  | relationships, loc1 :: rest =>
      proximity_pass dist
        (rest.foldl (fun r loc2 => proximity_pair_step dist r loc1 loc2) relationships)
        rest

/-- Embedding of `RiskReportParser.extract_location_relationships`: the
textual-pattern fold followed by the coordinate-proximity fallback.
`ms` abstracts the regex match pairs, `dist` the floating-point
haversine, and `report_locations` the (set-ordered) list of normalized
keyword locations found in the document. -/
def extract_location_relationships (ms : List (String × String))
    (dist : String → String → ℚ) (report_locations : List String) :
    List (String × String) :=
  proximity_pass dist (record_textual_relations ms) report_locations

/- ## C3 : first-writer-wins is false -/

/-- C3 is refuted: after the match `(塞梅鲁, 东爪哇)` records the parent
`东爪哇` for `塞梅鲁`, the later match `(塞梅鲁, 日本)` (realizable from a
document such as `塞梅鲁位于东爪哇省，塞梅鲁位于日本市` under pattern 1)
replaces the recorded parent with `日本`. -/
theorem c3_counterexample :
    List.lookup "塞梅鲁" (record_textual_relations [("塞梅鲁", "东爪哇")]) =
      some "东爪哇" ∧
    List.lookup "塞梅鲁"
      (record_textual_relations [("塞梅鲁", "东爪哇"), ("塞梅鲁", "日本")]) =
      some "日本" := by decide

/-- C3 as amended: a later valid match for child `C` always (re)writes `C`'s
recorded parent; the only protection is the reverse-pair guard, which drops
the match when the dict currently records the new parent as a child of `C`.
First-recorded does not win in general. -/
theorem c3_overwrite_unless_reverse (relationships : List (String × String))
    (m : String × String) (child_n parent_n : String)
    (hc : normalize_location (strip_admin_suffix m.1) = some child_n)
    (hp : normalize_location (strip_admin_suffix m.2) = some parent_n)
    (hvalid : child_n ≠ "" ∧ parent_n ≠ "" ∧ child_n ≠ parent_n ∧
      child_n ≠ "未明确" ∧ parent_n ≠ "未明确") :
    List.lookup child_n (process_relationship_match relationships m) =
      if List.lookup parent_n relationships = some child_n then
        List.lookup child_n relationships
      else some parent_n := by
  simp only [process_relationship_match, hc, hp]
  rw [if_pos hvalid]
  by_cases hg : List.lookup parent_n relationships = some child_n
  · simp [hg]
  · simp [hg, lookup_dictSet]

theorem c3_overwrite_unless_reverse_witness :
    List.lookup "塞梅鲁"
      (process_relationship_match [("塞梅鲁", "东爪哇")] ("塞梅鲁", "日本")) =
      some "日本" :=
  (c3_overwrite_unless_reverse [("塞梅鲁", "东爪哇")] ("塞梅鲁", "日本")
    "塞梅鲁" "日本" (by decide) (by decide) (by decide)).trans (by decide)

/- ## C4 : the proximity guard checks keys only -/

/-- C4 is refuted: with `福岛 → 东爪哇` already recorded (so `东爪哇` occurs
in the map as a parent value), the pair `(东爪哇, 塞梅鲁)` is still
eligible and reaches the distance computation, although the claim says a
location occurring anywhere in the map disqualifies the pair. -/
theorem c4_counterexample :
    proximity_eligible [("福岛", "东爪哇")] "东爪哇" "塞梅鲁" = true ∧
    ("福岛", "东爪哇") ∈ ([("福岛", "东爪哇")] : List (String × String)) ∧
    ("福岛", "东爪哇").2 = "东爪哇" := by decide

/-- Unpacking of the proximity-fallback guard. -/
theorem proximity_eligible_spec (relationships : List (String × String))
    (loc1 loc2 : String) (h : proximity_eligible relationships loc1 loc2 = true) :
    loc1 ≠ loc2 ∧ List.lookup loc1 relationships = none ∧
      List.lookup loc2 relationships = none := by
  unfold proximity_eligible at h
  simp only [Bool.and_eq_true, bne_iff_ne, ne_eq, Option.isNone_iff_eq_none] at h
  exact ⟨h.1.1.1.1, h.1.1.1.2, h.1.1.2⟩

/-- C4 as amended: eligibility of a pair only requires that neither location
is a key (recorded child) of the relationship dict built so far; occurrence
as a parent value does not disqualify the pair. -/
theorem c4_eligible_keys_only (relationships : List (String × String))
    (loc1 loc2 : String) (h : proximity_eligible relationships loc1 loc2 = true) :
    List.lookup loc1 relationships = none ∧
      List.lookup loc2 relationships = none :=
  ⟨(proximity_eligible_spec relationships loc1 loc2 h).2.1,
   (proximity_eligible_spec relationships loc1 loc2 h).2.2⟩

theorem c4_eligible_keys_only_witness :
    List.lookup "东爪哇" [("福岛", "东爪哇")] = none ∧
    List.lookup "塞梅鲁" [("福岛", "东爪哇")] = none :=
  c4_eligible_keys_only [("福岛", "东爪哇")] "东爪哇" "塞梅鲁" (by decide)

/- ## C5 : threshold and orientation of the proximity merge -/

/-- C5 is refuted on the orientation: at distance 50 the pair
`(荷兰, 澳大利亚)` has exactly one more-specific member (`澳大利亚`, longer
name), and the recorded relation maps the generic `荷兰` to the specific
`澳大利亚` — the more specific location becomes the parent value, not the
child key, contrary to the claim. -/
theorem c5_counterexample :
    proximity_pair_step (fun _ _ => 50) [] "荷兰" "澳大利亚" =
      [("荷兰", "澳大利亚")] ∧
    List.lookup "澳大利亚"
      (proximity_pair_step (fun _ _ => 50) [] "荷兰" "澳大利亚") = none ∧
    is_more_specific "澳大利亚" "荷兰" = true ∧
    is_more_specific "荷兰" "澳大利亚" = false := by decide

/-- C5 as amended: for an eligible pair, a relation is recorded iff the
distance is strictly below 100 (exactly 100 records nothing) and exactly
one of the two qualifies as more specific; when recorded, the more specific
location becomes the parent and the other the child. -/
theorem c5_record_condition (dist : String → String → ℚ)
    (relationships : List (String × String)) (loc1 loc2 : String)
    (h : proximity_eligible relationships loc1 loc2 = true) :
    (proximity_pair_step dist relationships loc1 loc2 ≠ relationships ↔
      (dist loc1 loc2 < 100 ∧
        is_more_specific loc1 loc2 ≠ is_more_specific loc2 loc1)) ∧
    (dist loc1 loc2 < 100 → is_more_specific loc2 loc1 = true →
      is_more_specific loc1 loc2 = false →
      List.lookup loc1 (proximity_pair_step dist relationships loc1 loc2) =
        some loc2) ∧
    (dist loc1 loc2 < 100 → is_more_specific loc1 loc2 = true →
      is_more_specific loc2 loc1 = false →
      List.lookup loc2 (proximity_pair_step dist relationships loc1 loc2) =
        some loc1) := by
  obtain ⟨hne, h1, h2⟩ := proximity_eligible_spec relationships loc1 loc2 h
  refine ⟨?_, ?_, ?_⟩
  · unfold proximity_pair_step
    rw [if_pos h]
    by_cases hd : dist loc1 loc2 < 100
    · rw [if_pos hd]
      by_cases hs1 : is_more_specific loc1 loc2 = true <;>
        by_cases hs2 : is_more_specific loc2 loc1 = true
      · simp [hs1, hs2]
      · rw [Bool.not_eq_true] at hs2
        have hif : (if is_more_specific loc2 loc1 && !is_more_specific loc1 loc2 then
              dictSet relationships loc1 loc2
            else if is_more_specific loc1 loc2 && !is_more_specific loc2 loc1 then
              dictSet relationships loc2 loc1
            else relationships) = dictSet relationships loc2 loc1 := by
          simp [hs1, hs2]
        rw [hif]
        constructor
        · intro _
          exact ⟨hd, by simp [hs1, hs2]⟩
        · intro _ heq
          have hlk : List.lookup loc2 (dictSet relationships loc2 loc1) = some loc1 := by
            rw [lookup_dictSet, if_pos rfl]
          rw [heq, h2] at hlk
          exact Option.noConfusion hlk
      · rw [Bool.not_eq_true] at hs1
        have hif : (if is_more_specific loc2 loc1 && !is_more_specific loc1 loc2 then
              dictSet relationships loc1 loc2
            else if is_more_specific loc1 loc2 && !is_more_specific loc2 loc1 then
              dictSet relationships loc2 loc1
            else relationships) = dictSet relationships loc1 loc2 := by
          simp [hs1, hs2]
        rw [hif]
        constructor
        · intro _
          exact ⟨hd, by simp [hs1, hs2]⟩
        · intro _ heq
          have hlk : List.lookup loc1 (dictSet relationships loc1 loc2) = some loc2 := by
            rw [lookup_dictSet, if_pos rfl]
          rw [heq, h1] at hlk
          exact Option.noConfusion hlk
      · rw [Bool.not_eq_true] at hs1 hs2
        simp [hs1, hs2]
    · rw [if_neg hd]
      simp [hd]
  · intro hd hs2 hs1
    unfold proximity_pair_step
    rw [if_pos h, if_pos hd]
    simp [hs1, hs2, lookup_dictSet]
  · intro hd hs1 hs2
    unfold proximity_pair_step
    rw [if_pos h, if_pos hd]
    simp [hs1, hs2, lookup_dictSet]

theorem c5_record_condition_witness :
    List.lookup "中国"
      (proximity_pair_step (fun _ _ => 50) [] "中国" "印度尼西亚") =
      some "印度尼西亚" :=
  (c5_record_condition (fun _ _ => 50) [] "中国" "印度尼西亚" (by decide)).2.1
    (by decide) (by decide) (by decide)

/- ## C6 : cycles in the merged hierarchy -/

/-- Absence of direct two-cycles in a child-to-parent dict. -/
def NoTwoCycle (relationships : List (String × String)) : Prop :=
  ∀ a b : String, List.lookup a relationships = some b →
    List.lookup b relationships ≠ some a

theorem noTwoCycle_dictSet (relationships : List (String × String)) (c p : String)
    (h : NoTwoCycle relationships) (hcp : c ≠ p)
    (hguard : List.lookup p relationships ≠ some c) :
    NoTwoCycle (dictSet relationships c p) := by
  intro a b hab
  rw [lookup_dictSet] at hab ⊢
  by_cases hac : a = c
  · subst hac
    rw [if_pos rfl] at hab
    obtain rfl : p = b := by simpa using hab
    rw [if_neg (Ne.symm hcp)]
    exact hguard
  · rw [if_neg hac] at hab
    by_cases hbc : b = c
    · subst hbc
      rw [if_pos rfl]
      intro hcontra
      obtain rfl : p = a := by simpa using hcontra
      exact hguard hab
    · rw [if_neg hbc]
      exact h a b hab

theorem process_relationship_match_noTwoCycle
    (relationships : List (String × String)) (m : String × String)
    (h : NoTwoCycle relationships) :
    NoTwoCycle (process_relationship_match relationships m) := by
  rcases hc : normalize_location (strip_admin_suffix m.1) with _ | child_n <;>
    rcases hp : normalize_location (strip_admin_suffix m.2) with _ | parent_n <;>
      simp only [process_relationship_match, hc, hp]
  · exact h
  · exact h
  · exact h
  · split_ifs with h1 h2
    · exact noTwoCycle_dictSet _ _ _ h h1.2.2.1 h2
    · exact h
    · exact h

theorem proximity_pair_step_noTwoCycle (dist : String → String → ℚ)
    (relationships : List (String × String)) (loc1 loc2 : String)
    (h : NoTwoCycle relationships) :
    NoTwoCycle (proximity_pair_step dist relationships loc1 loc2) := by
  unfold proximity_pair_step
  split_ifs with he hd hb1 hb2
  · obtain ⟨hne, h1, h2⟩ := proximity_eligible_spec relationships loc1 loc2 he
    exact noTwoCycle_dictSet _ _ _ h hne (by simp [h2])
  · obtain ⟨hne, h1, h2⟩ := proximity_eligible_spec relationships loc1 loc2 he
    exact noTwoCycle_dictSet _ _ _ h (Ne.symm hne) (by simp [h1])
  · exact h
  · exact h
  · exact h

theorem foldl_pair_noTwoCycle (dist : String → String → ℚ) (loc1 : String)
    (ls : List String) (relationships : List (String × String))
    (h : NoTwoCycle relationships) :
    NoTwoCycle
      (ls.foldl (fun r loc2 => proximity_pair_step dist r loc1 loc2) relationships) := by
  induction ls generalizing relationships with
  | nil => exact h
  | cons l rest ih =>
      exact ih _ (proximity_pair_step_noTwoCycle dist relationships loc1 l h)

theorem proximity_pass_noTwoCycle (dist : String → String → ℚ)
    (ls : List String) (relationships : List (String × String))
    (h : NoTwoCycle relationships) :
    NoTwoCycle (proximity_pass dist relationships ls) := by
  induction ls generalizing relationships with
  | nil => exact h
  | cons l rest ih =>
      simp only [proximity_pass]
      exact ih _ (foldl_pair_noTwoCycle dist l rest relationships h)

theorem record_textual_relations_noTwoCycle (ms : List (String × String)) :
    NoTwoCycle (record_textual_relations ms) := by
  have key : ∀ (l : List (String × String)) (acc : List (String × String)),
      NoTwoCycle acc → NoTwoCycle (l.foldl process_relationship_match acc) := by
    intro l
    induction l with
    | nil => intro acc h; exact h
    | cons m rest ih =>
        intro acc h
        exact ih _ (process_relationship_match_noTwoCycle acc m h)
  refine key ms [] ?_
  intro a b hab
  simp [List.lookup] at hab

/-- C6 is refuted: from a document such as `中国位于东莞市` the textual scan
records the dynamic relation `中国 → 东莞`; merged with the static table
entry `东莞 → 中国`, the effective relation used by one filter call makes
each of the two locations both a (depth-one) ancestor and a descendant of
the other. -/
theorem c6_counterexample :
    effective_parent (record_textual_relations [("中国", "东莞")]) "中国" =
      some "东莞" ∧
    effective_parent (record_textual_relations [("中国", "东莞")]) "东莞" =
      some "中国" := by decide

/-- C6 as amended: the dynamically extracted map on its own (textual scan
plus proximity fallback) never records a direct two-cycle: whenever it maps
`a` to `b` it does not also map `b` to `a`.  Cycles can only arise when the
dynamic map is merged with the static table. -/
theorem c6_dynamic_no_two_cycle (ms : List (String × String))
    (dist : String → String → ℚ) (report_locations : List String) (a b : String)
    (hab : List.lookup a (extract_location_relationships ms dist report_locations) =
      some b) :
    List.lookup b (extract_location_relationships ms dist report_locations) ≠
      some a := by
  unfold extract_location_relationships at hab ⊢
  exact proximity_pass_noTwoCycle dist report_locations _
    (record_textual_relations_noTwoCycle ms) a b hab

theorem c6_dynamic_no_two_cycle_witness :
    List.lookup "东莞"
      (extract_location_relationships [("中国", "东莞")] (fun _ _ => 0) []) ≠
      some "中国" :=
  c6_dynamic_no_two_cycle [("中国", "东莞")] (fun _ _ => 0) [] "中国" "东莞"
    (by decide)

/- ## Keyword scan and extraction pipeline (`extract_location_from_text`) -/

/-- Prefix test on character lists. -/
def listStartsWith : List Char → List Char → Bool
  | [], _ => true
  | _ :: _, [] => false
  | a :: as, b :: bs => a == b && listStartsWith as bs

/-- Naive substring test on character lists (any position). -/
def listContainsSub (sub : List Char) : List Char → Bool
  | [] => listStartsWith sub []
  | c :: rest => listStartsWith sub (c :: rest) || listContainsSub sub rest

/-- Python's containment test `sub in text` on strings. -/
def strContains (text sub : String) : Bool :=
  listContainsSub sub.data text.data

/-- Keyword list `location_keywords` of `extract_location_from_text`
(lines 362-369), in source order, including the intentionally-vague tokens. -/
def location_keywords : List String :=
  ["荷兰", "中国", "日本", "美国", "欧盟", "欧洲", "德国", "法国", "英国",
   "澳大利亚", "韩国", "印度", "越南", "印尼", "印度尼西亚",
   "福岛", "莱茵河", "鹿儿岛", "塞梅鲁", "东爪哇", "东莞",
   "中部", "沿海地区", "国内", "海外", "东南亚",
   "广汽", "本田", "安世"]

/-- One iteration of the keyword loop (lines 372-377): on a hit, normalize
and append if the result is truthy and not yet collected. -/
def scan_step (text : String) (locations : List String) (keyword : String) :
    List String :=
  if strContains text keyword then
    match normalize_location keyword with
    | some normalized =>
        if normalized ≠ "" ∧ normalized ∉ locations then locations ++ [normalized]
        else locations
    | none => locations
  else locations

/-- The keyword scan over one text excerpt. -/
def scan_keywords (text : String) : List String :=
  List.foldl (scan_step text) [] location_keywords

/-- Embedding of `RiskReportParser.extract_location_from_text`.  The
document-level dynamic relation dict and the risk-summary fallback excerpt
are parameters (the summary is produced by an out-of-core collaborator; the
dynamic dict by `extract_location_relationships` on the document). -/
def extract_location_from_text (dynamic : List (String × String))
    (summary : Option String) (text : String) : List String :=
  let found :=
    if scan_keywords text = [] then
      match summary with
      | some s => if s ≠ "" then scan_keywords s else scan_keywords text
      | none => scan_keywords text
    else scan_keywords text
  if filter_redundant_locations dynamic found = [] then ["未明确"]
  else filter_redundant_locations dynamic found

/- ## C2 : both 东莞 and 中国 in the item text -/

/-- C2 is refuted as stated: the item text `中国日本东莞` contains both
`东莞` and `中国` (and the document contributes no dynamic relation), yet
the pipeline returns `["日本", "东莞"]`, not the one-element `["东莞"]` —
any further recognized keyword in the text survives into the output. -/
theorem c2_counterexample :
    strContains "中国日本东莞" "东莞" = true ∧
    strContains "中国日本东莞" "中国" = true ∧
    extract_location_from_text [] none "中国日本东莞" = ["日本", "东莞"] := by
  decide

/-- C2 as amended: for every item text that contains `东莞` and `中国` and
no other recognized keyword, and every document whose dynamic relation dict
has no entry with `东莞` or `中国` on either side, the pipeline returns
exactly `["东莞"]`. -/
theorem c2_both_only (dynamic : List (String × String)) (summary : Option String)
    (text : String)
    (hdw : strContains text "东莞" = true)
    (hzg : strContains text "中国" = true)
    (hothers : ∀ kw ∈ location_keywords, kw ≠ "东莞" → kw ≠ "中国" →
      strContains text kw = false)
    (hdyn : ∀ p ∈ dynamic, p.1 ≠ "东莞" ∧ p.1 ≠ "中国" ∧
      p.2 ≠ "东莞" ∧ p.2 ≠ "中国") :
    extract_location_from_text dynamic summary text = ["东莞"] := by
  have hskip : ∀ kw, strContains text kw = false →
      ∀ acc : List String, scan_step text acc kw = acc := by
    intro kw h acc
    simp [scan_step, h]
  have hs1 : scan_step text [] "中国" = ["中国"] := by
    unfold scan_step
    rw [hzg]
    decide
  have hs2 : scan_step text ["中国"] "东莞" = ["中国", "东莞"] := by
    unfold scan_step
    rw [hdw]
    decide
  have hscan : scan_keywords text = ["中国", "东莞"] := by
    unfold scan_keywords location_keywords
    simp only [List.foldl_cons, List.foldl_nil]
    rw [hskip "荷兰" (hothers "荷兰" (by decide) (by decide) (by decide)) ([] : List String)]
    rw [hs1]
    rw [hskip "日本" (hothers "日本" (by decide) (by decide) (by decide)) (["中国"] : List String)]
    rw [hskip "美国" (hothers "美国" (by decide) (by decide) (by decide)) (["中国"] : List String)]
    rw [hskip "欧盟" (hothers "欧盟" (by decide) (by decide) (by decide)) (["中国"] : List String)]
    rw [hskip "欧洲" (hothers "欧洲" (by decide) (by decide) (by decide)) (["中国"] : List String)]
    rw [hskip "德国" (hothers "德国" (by decide) (by decide) (by decide)) (["中国"] : List String)]
    rw [hskip "法国" (hothers "法国" (by decide) (by decide) (by decide)) (["中国"] : List String)]
    rw [hskip "英国" (hothers "英国" (by decide) (by decide) (by decide)) (["中国"] : List String)]
    rw [hskip "澳大利亚" (hothers "澳大利亚" (by decide) (by decide) (by decide)) (["中国"] : List String)]
    rw [hskip "韩国" (hothers "韩国" (by decide) (by decide) (by decide)) (["中国"] : List String)]
    rw [hskip "印度" (hothers "印度" (by decide) (by decide) (by decide)) (["中国"] : List String)]
    rw [hskip "越南" (hothers "越南" (by decide) (by decide) (by decide)) (["中国"] : List String)]
    rw [hskip "印尼" (hothers "印尼" (by decide) (by decide) (by decide)) (["中国"] : List String)]
    rw [hskip "印度尼西亚" (hothers "印度尼西亚" (by decide) (by decide) (by decide)) (["中国"] : List String)]
    rw [hskip "福岛" (hothers "福岛" (by decide) (by decide) (by decide)) (["中国"] : List String)]
    rw [hskip "莱茵河" (hothers "莱茵河" (by decide) (by decide) (by decide)) (["中国"] : List String)]
    rw [hskip "鹿儿岛" (hothers "鹿儿岛" (by decide) (by decide) (by decide)) (["中国"] : List String)]
    rw [hskip "塞梅鲁" (hothers "塞梅鲁" (by decide) (by decide) (by decide)) (["中国"] : List String)]
    rw [hskip "东爪哇" (hothers "东爪哇" (by decide) (by decide) (by decide)) (["中国"] : List String)]
    rw [hs2]
    rw [hskip "中部" (hothers "中部" (by decide) (by decide) (by decide)) (["中国", "东莞"] : List String)]
    rw [hskip "沿海地区" (hothers "沿海地区" (by decide) (by decide) (by decide)) (["中国", "东莞"] : List String)]
    rw [hskip "国内" (hothers "国内" (by decide) (by decide) (by decide)) (["中国", "东莞"] : List String)]
    rw [hskip "海外" (hothers "海外" (by decide) (by decide) (by decide)) (["中国", "东莞"] : List String)]
    rw [hskip "东南亚" (hothers "东南亚" (by decide) (by decide) (by decide)) (["中国", "东莞"] : List String)]
    rw [hskip "广汽" (hothers "广汽" (by decide) (by decide) (by decide)) (["中国", "东莞"] : List String)]
    rw [hskip "本田" (hothers "本田" (by decide) (by decide) (by decide)) (["中国", "东莞"] : List String)]
    rw [hskip "安世" (hothers "安世" (by decide) (by decide) (by decide)) (["中国", "东莞"] : List String)]
  have hz : List.lookup "中国" (dictMerge manual_region_to_region dynamic) = none := by
    rw [lookup_dictMerge _ _ _ (fun p hp => (hdyn p hp).2.1)]
    decide
  have hd : List.lookup "东莞" (dictMerge manual_region_to_region dynamic) = none := by
    rw [lookup_dictMerge _ _ _ (fun p hp => (hdyn p hp).1)]
    decide
  have hf1 : filterStep (dictMerge manual_region_to_region dynamic)
      ["中国", "东莞"] [] "中国" = [] := by
    unfold filterStep
    rw [hz]
    decide
  have hf2 : filterStep (dictMerge manual_region_to_region dynamic)
      ["中国", "东莞"] [] "东莞" = ["东莞"] := by
    unfold filterStep
    rw [hd]
    decide
  have hcore : filterCore dynamic ["中国", "东莞"] = ["东莞"] := by
    unfold filterCore
    simp only [List.foldl_cons, List.foldl_nil]
    rw [hf1, hf2]
  have hfilter : filter_redundant_locations dynamic ["中国", "东莞"] = ["东莞"] := by
    unfold filter_redundant_locations
    rw [hcore]
    decide
  simp only [extract_location_from_text]
  rw [hscan, if_neg (by decide : ¬(["中国", "东莞"] : List String) = []), hfilter]
  decide

theorem c2_both_only_witness :
    extract_location_from_text [] none "中国东莞" = ["东莞"] :=
  c2_both_only [] none "中国东莞" (by decide) (by decide) (by decide)
    (fun p hp => absurd hp (List.not_mem_nil p))

/- ## Generic growth lemmas for the accumulating scans -/

theorem foldl_grow {α : Type} (f : List String → α → List String)
    (hf : ∀ (acc : List String) (x : α),
      f acc x = acc ∨ ∃ v, v ∉ acc ∧ f acc x = acc ++ [v]) :
    ∀ (ls : List α) (acc : List String), ∃ t, List.foldl f acc ls = acc ++ t := by
  intro ls
  induction ls with
  | nil => intro acc; exact ⟨[], by simp⟩
  | cons x xs ih =>
      intro acc
      rw [List.foldl_cons]
      rcases hf acc x with h | ⟨v, _, h⟩
      · rw [h]; exact ih acc
      · rw [h]
        rcases ih (acc ++ [v]) with ⟨t, ht⟩
        exact ⟨v :: t, by rw [ht]; simp⟩

theorem scan_step_cases (text : String) (acc : List String) (kw : String) :
    scan_step text acc kw = acc ∨
    ∃ v, strContains text kw = true ∧ normalize_location kw = some v ∧
      v ∉ acc ∧ scan_step text acc kw = acc ++ [v] := by
  unfold scan_step
  by_cases hc : strContains text kw = true
  · rw [if_pos hc]
    rcases hn : normalize_location kw with _ | v
    · exact Or.inl rfl
    · by_cases hv : v ≠ "" ∧ v ∉ acc
      · refine Or.inr ⟨v, hc, rfl, hv.2, ?_⟩
        show (if v ≠ "" ∧ v ∉ acc then acc ++ [v] else acc) = acc ++ [v]
        rw [if_pos hv]
      · refine Or.inl ?_
        show (if v ≠ "" ∧ v ∉ acc then acc ++ [v] else acc) = acc
        rw [if_neg hv]
  · rw [if_neg hc]
    exact Or.inl rfl

theorem scan_foldl_mem (text : String) (kws : List String) :
    ∀ (acc : List String) (x : String),
    x ∈ List.foldl (scan_step text) acc kws →
    x ∈ acc ∨ ∃ kw ∈ kws, strContains text kw = true ∧
      normalize_location kw = some x := by
  induction kws with
  | nil => intro acc x hx; exact Or.inl (by simpa using hx)
  | cons k ks ih =>
      intro acc x hx
      rw [List.foldl_cons] at hx
      rcases ih (scan_step text acc k) x hx with h | ⟨kw, hkw, h1, h2⟩
      · rcases scan_step_cases text acc k with hs | ⟨v, hc, hn, _, hs⟩
        · rw [hs] at h; exact Or.inl h
        · rw [hs] at h
          rcases List.mem_append.mp h with h | h
          · exact Or.inl h
          · obtain rfl : x = v := by simpa using h
            exact Or.inr ⟨k, by simp, hc, hn⟩
      · exact Or.inr ⟨kw, by simp [hkw], h1, h2⟩

theorem scan_foldl_nodup (text : String) (kws : List String) :
    ∀ acc : List String, acc.Nodup → (List.foldl (scan_step text) acc kws).Nodup := by
  induction kws with
  | nil => intro acc h; exact h
  | cons k ks ih =>
      intro acc h
      rw [List.foldl_cons]
      apply ih
      rcases scan_step_cases text acc k with hs | ⟨v, _, _, hv, hs⟩
      · rw [hs]; exact h
      · rw [hs]
        refine List.Nodup.append h (List.nodup_singleton v) ?_
        intro y hy hyv
        rw [List.mem_singleton] at hyv
        subst hyv
        exact hv hy

/- ## Keep condition and order preservation of the redundancy filter -/

/-- Whether one `filter_redundant_locations` loop iteration appends the
current location (given it is not yet collected). -/
def keepsLoc (region_to_region : List (String × String)) (locations : List String)
    (loc : String) : Bool :=
  match List.lookup loc region_to_region with
  | some parent_region => !(decide (parent_region ∈ locations))
  | none =>
      match List.lookup loc location_hierarchy with
      | some _ => true
      | none => !(has_specific_region loc locations)

theorem filterStep_eq_keeps (R : List (String × String)) (L acc : List String)
    (loc : String) :
    filterStep R L acc loc =
      if keepsLoc R L loc = true ∧ loc ∉ acc then acc ++ [loc] else acc := by
  unfold filterStep keepsLoc
  rcases List.lookup loc R with _ | p
  · rcases List.lookup loc location_hierarchy with _ | c
    · by_cases hs : has_specific_region loc L = true
      · simp [hs]
      · rw [Bool.not_eq_true] at hs
        by_cases ha : loc ∈ acc <;> simp [hs, ha]
    · by_cases hc : c ∈ L <;> by_cases ha : loc ∈ acc <;> simp [hc, ha]
  · by_cases hp : p ∈ L <;> by_cases ha : loc ∈ acc <;> simp [hp, ha]

theorem filterStep_cases (R : List (String × String)) (L acc : List String)
    (loc : String) :
    filterStep R L acc loc = acc ∨
    (loc ∉ acc ∧ filterStep R L acc loc = acc ++ [loc]) := by
  rw [filterStep_eq_keeps]
  by_cases h : keepsLoc R L loc = true ∧ loc ∉ acc
  · exact Or.inr ⟨h.2, by rw [if_pos h]⟩
  · exact Or.inl (by rw [if_neg h])

theorem filter_foldl_mem (R : List (String × String)) (L : List String)
    (ls : List String) : ∀ (acc : List String) (x : String),
    x ∈ List.foldl (filterStep R L) acc ls → x ∈ acc ∨ x ∈ ls := by
  induction ls with
  | nil => intro acc x hx; exact Or.inl (by simpa using hx)
  | cons l rest ih =>
      intro acc x hx
      rw [List.foldl_cons] at hx
      rcases ih (filterStep R L acc l) x hx with h | h
      · rcases filterStep_cases R L acc l with hs | ⟨_, hs⟩
        · rw [hs] at h; exact Or.inl h
        · rw [hs] at h
          rcases List.mem_append.mp h with h | h
          · exact Or.inl h
          · exact Or.inr (by simp [List.mem_singleton.mp h])
      · exact Or.inr (List.mem_cons_of_mem l h)

theorem filter_foldl_keeps_order (R : List (String × String)) (L : List String)
    (a b : String) (s1 s2 s3 : List String)
    (hL : L = s1 ++ (a :: (s2 ++ (b :: s3)))) (hnd : L.Nodup)
    (ha : keepsLoc R L a = true) (hb : keepsLoc R L b = true) :
    ∃ t1 t2 t3, List.foldl (filterStep R L) [] L = t1 ++ (a :: (t2 ++ (b :: t3))) := by
  have hstepcases : ∀ (acc : List String) (loc : String),
      filterStep R L acc loc = acc ∨
      ∃ v, v ∉ acc ∧ filterStep R L acc loc = acc ++ [v] := by
    intro acc loc
    rcases filterStep_cases R L acc loc with h | ⟨h1, h2⟩
    · exact Or.inl h
    · exact Or.inr ⟨loc, h1, h2⟩
  have hndr := hnd
  rw [hL] at hndr
  have hdisj : List.Disjoint s1 (a :: (s2 ++ (b :: s3))) :=
    List.disjoint_of_nodup_append hndr
  have htail : (a :: (s2 ++ (b :: s3))).Nodup := (List.nodup_append.mp hndr).2.1
  have has1 : a ∉ s1 := fun h => hdisj h (by simp)
  have hbs1 : b ∉ s1 := fun h => hdisj h (by simp)
  have hanotin : a ∉ s2 ++ (b :: s3) := (List.nodup_cons.mp htail).1
  have hab : a ≠ b := by
    intro h
    exact hanotin (by simp [h])
  have hbs2 : b ∉ s2 := by
    have h2 : (s2 ++ (b :: s3)).Nodup := (List.nodup_cons.mp htail).2
    have hd := List.disjoint_of_nodup_append h2
    exact fun h => hd h (by simp)
  have ha1 : a ∉ List.foldl (filterStep R L) [] s1 := by
    intro h
    rcases filter_foldl_mem R L s1 [] a h with h | h
    · simp at h
    · exact has1 h
  have hstepa : filterStep R L (List.foldl (filterStep R L) [] s1) a =
      List.foldl (filterStep R L) [] s1 ++ [a] := by
    rw [filterStep_eq_keeps, if_pos ⟨ha, ha1⟩]
  obtain ⟨u, hu⟩ := foldl_grow (filterStep R L) hstepcases s2
      (List.foldl (filterStep R L) [] s1 ++ [a])
  have hb2 : b ∉ List.foldl (filterStep R L)
      (List.foldl (filterStep R L) [] s1 ++ [a]) s2 := by
    intro h
    rcases filter_foldl_mem R L s2 _ b h with h | h
    · rcases List.mem_append.mp h with h | h
      · rcases filter_foldl_mem R L s1 [] b h with h | h
        · simp at h
        · exact hbs1 h
      · have hba : b = a := List.mem_singleton.mp h
        exact hab hba.symm
    · exact hbs2 h
  have hstepb : filterStep R L
        (List.foldl (filterStep R L) (List.foldl (filterStep R L) [] s1 ++ [a]) s2) b =
      List.foldl (filterStep R L) (List.foldl (filterStep R L) [] s1 ++ [a]) s2 ++ [b] := by
    rw [filterStep_eq_keeps, if_pos ⟨hb, hb2⟩]
  obtain ⟨w, hw⟩ := foldl_grow (filterStep R L) hstepcases s3
      (List.foldl (filterStep R L) (List.foldl (filterStep R L) [] s1 ++ [a]) s2 ++ [b])
  refine ⟨List.foldl (filterStep R L) [] s1, u, w, ?_⟩
  calc List.foldl (filterStep R L) [] L
      = List.foldl (filterStep R L) [] (s1 ++ (a :: (s2 ++ (b :: s3)))) := by rw [hL]
    _ = List.foldl (filterStep R L) (List.foldl (filterStep R L) [] s1)
          (a :: (s2 ++ (b :: s3))) := by
        rw [List.foldl_append]
    _ = List.foldl (filterStep R L) (List.foldl (filterStep R L) [] s1 ++ [a])
          (s2 ++ (b :: s3)) := by
        rw [List.foldl_cons, hstepa]
    _ = List.foldl (filterStep R L)
          (List.foldl (filterStep R L) (List.foldl (filterStep R L) [] s1 ++ [a]) s2)
          (b :: s3) := by
        rw [List.foldl_append]
    _ = List.foldl (filterStep R L)
          (List.foldl (filterStep R L) (List.foldl (filterStep R L) [] s1 ++ [a]) s2 ++ [b])
          s3 := by
        rw [List.foldl_cons, hstepb]
    _ = List.foldl (filterStep R L) (List.foldl (filterStep R L) [] s1 ++ [a]) s2 ++ [b]
          ++ w := hw
    _ = List.foldl (filterStep R L) [] s1 ++ (a :: (u ++ (b :: w))) := by
        rw [hu]; simp

/- ## Substring monotonicity -/

theorem listStartsWith_trans (a : List Char) : ∀ b c : List Char,
    listStartsWith a b = true → listStartsWith b c = true →
    listStartsWith a c = true := by
  induction a with
  | nil => intro b c _ _; rfl
  | cons x as ih =>
      intro b c hab hbc
      cases b with
      | nil => simp [listStartsWith] at hab
      | cons y bs =>
          cases c with
          | nil => simp [listStartsWith] at hbc
          | cons z cs =>
              simp only [listStartsWith, Bool.and_eq_true, beq_iff_eq] at hab hbc ⊢
              exact ⟨hab.1.trans hbc.1, ih bs cs hab.2 hbc.2⟩

theorem listContainsSub_mono (small big : List Char)
    (hpre : listStartsWith small big = true) :
    ∀ t : List Char, listContainsSub big t = true → listContainsSub small t = true := by
  intro t
  induction t with
  | nil =>
      intro h
      cases big with
      | nil =>
          cases small with
          | nil => rfl
          | cons _ _ => simp [listStartsWith] at hpre
      | cons _ _ => simp [listContainsSub, listStartsWith] at h
  | cons c rest ih =>
      intro h
      simp only [listContainsSub, Bool.or_eq_true] at h ⊢
      rcases h with h | h
      · exact Or.inl (listStartsWith_trans small big (c :: rest) hpre h)
      · exact Or.inr (ih h)

theorem strContains_mono (text sub1 sub2 : String)
    (hpre : listStartsWith sub2.data sub1.data = true)
    (h : strContains text sub1 = true) : strContains text sub2 = true :=
  listContainsSub_mono sub2.data sub1.data hpre text.data h

/- ## Scan decomposition around two present keywords -/

theorem scan_decomp_general (text : String) (k1 : List String) (kmid : String)
    (k2a : List String) (kmid2 : String) (k2b : List String)
    (hc1 : strContains text kmid = true) (hc2 : strContains text kmid2 = true)
    (hn1 : normalize_location kmid = some kmid)
    (hn2 : normalize_location kmid2 = some kmid2)
    (hne1 : kmid ≠ "") (hne2 : kmid2 ≠ "") (hmm : kmid2 ≠ kmid)
    (habs1 : ∀ kw ∈ k1, normalize_location kw ≠ some kmid ∧
      normalize_location kw ≠ some kmid2) :
    ∃ xs ys zs,
      List.foldl (scan_step text) [] (k1 ++ (kmid :: (k2a ++ (kmid2 :: k2b)))) =
        xs ++ (kmid :: (ys ++ (kmid2 :: zs))) := by
  have hscancases : ∀ (acc : List String) (kw : String),
      scan_step text acc kw = acc ∨
      ∃ v, v ∉ acc ∧ scan_step text acc kw = acc ++ [v] := by
    intro acc kw
    rcases scan_step_cases text acc kw with h | ⟨v, _, _, hv, h⟩
    · exact Or.inl h
    · exact Or.inr ⟨v, hv, h⟩
  have h1 : kmid ∉ List.foldl (scan_step text) [] k1 := by
    intro h
    rcases scan_foldl_mem text k1 [] kmid h with h | ⟨kw, hkw, _, hn⟩
    · simp at h
    · exact (habs1 kw hkw).1 hn
  have hstep : scan_step text (List.foldl (scan_step text) [] k1) kmid =
      List.foldl (scan_step text) [] k1 ++ [kmid] := by
    simp [scan_step, hc1, hn1, hne1, h1]
  have hb : kmid2 ∈ scan_step text
      (List.foldl (scan_step text) (List.foldl (scan_step text) [] k1 ++ [kmid]) k2a)
      kmid2 := by
    by_cases hmem : kmid2 ∈
        List.foldl (scan_step text) (List.foldl (scan_step text) [] k1 ++ [kmid]) k2a
    · simp [scan_step, hc2, hn2, hmem]
    · simp [scan_step, hc2, hn2, hne2, hmem]
  obtain ⟨w, hw⟩ := foldl_grow (scan_step text) hscancases k2b
      (scan_step text
        (List.foldl (scan_step text) (List.foldl (scan_step text) [] k1 ++ [kmid]) k2a)
        kmid2)
  have hmemFinal : kmid2 ∈ List.foldl (scan_step text)
      (List.foldl (scan_step text) [] k1 ++ [kmid]) (k2a ++ (kmid2 :: k2b)) := by
    rw [List.foldl_append, List.foldl_cons, hw]
    exact List.mem_append.mpr (Or.inl hb)
  obtain ⟨T, hT⟩ := foldl_grow (scan_step text) hscancases (k2a ++ (kmid2 :: k2b))
      (List.foldl (scan_step text) [] k1 ++ [kmid])
  have hnotA1 : kmid2 ∉ List.foldl (scan_step text) [] k1 ++ [kmid] := by
    intro h
    rcases List.mem_append.mp h with h | h
    · rcases scan_foldl_mem text k1 [] kmid2 h with h2 | ⟨kw, hkw, _, hn⟩
      · simp at h2
      · exact (habs1 kw hkw).2 hn
    · exact hmm (List.mem_singleton.mp h)
  have hmemT : kmid2 ∈ T := by
    have hm := hmemFinal
    rw [hT] at hm
    rcases List.mem_append.mp hm with h | h
    · exact absurd h hnotA1
    · exact h
  obtain ⟨ys, zs, hT2⟩ := List.append_of_mem hmemT
  refine ⟨List.foldl (scan_step text) [] k1, ys, zs, ?_⟩
  rw [List.foldl_append, List.foldl_cons, hstep, hT, hT2]
  simp

theorem scan_keywords_decomp (text : String)
    (hbig : strContains text "印度尼西亚" = true) :
    ∃ xs ys zs, scan_keywords text =
      xs ++ ("印度" :: (ys ++ ("印度尼西亚" :: zs))) := by
  have hind : strContains text "印度" = true :=
    strContains_mono text "印度尼西亚" "印度" (by decide) hbig
  have h := scan_decomp_general text
      ["荷兰", "中国", "日本", "美国", "欧盟", "欧洲", "德国", "法国", "英国",
       "澳大利亚", "韩国"] "印度" ["越南", "印尼"] "印度尼西亚"
      ["福岛", "莱茵河", "鹿儿岛", "塞梅鲁", "东爪哇", "东莞",
       "中部", "沿海地区", "国内", "海外", "东南亚", "广汽", "本田", "安世"]
      hind hbig (by decide) (by decide) (by decide) (by decide) (by decide)
      (by decide)
  exact h

theorem has_specific_region_eq_false (loc : String) (L : List String)
    (h : ∀ rc ∈ location_hierarchy, rc.2 = loc → rc.1 ∉ L) :
    has_specific_region loc L = false := by
  unfold has_specific_region
  rw [List.any_eq_false]
  intro rc hrc
  by_cases h2 : rc.2 = loc
  · simp [h2, h rc hrc h2]
  · simp [beq_eq_false_iff_ne.mpr h2]

/- ## C10 : substring matching makes 印度 fire inside 印度尼西亚 -/

/-- C10 is refuted as universally stated: for the item text
`印度尼西亚东爪哇` (no dynamic relations), the scan produces
`[印度, 印度尼西亚, 东爪哇]` but the filter then drops `印度尼西亚`
because its known region `东爪哇` is present, so the output does not
contain `印度尼西亚`. -/
theorem c10_counterexample :
    strContains "印度尼西亚东爪哇" "印度尼西亚" = true ∧
    extract_location_from_text [] none "印度尼西亚东爪哇" = ["印度", "东爪哇"] ∧
    "印度尼西亚" ∉ extract_location_from_text [] none "印度尼西亚东爪哇" := by
  decide

/-- C10 as amended: keyword matching is substring containment, so any item
text containing `印度尼西亚` also fires the keyword `印度`; provided the
text does not also mention `东爪哇` or `塞梅鲁` (which would knock out the
country) and the document's dynamic relation dict has no entry with `印度`
or `印度尼西亚` on either side, the output contains both, with `印度`
before `印度尼西亚`. -/
theorem c10_substring_india (dynamic : List (String × String))
    (summary : Option String) (text : String)
    (hbig : strContains text "印度尼西亚" = true)
    (hdj : strContains text "东爪哇" = false)
    (hsm : strContains text "塞梅鲁" = false)
    (hdyn : ∀ p ∈ dynamic, p.1 ≠ "印度" ∧ p.1 ≠ "印度尼西亚" ∧
      p.2 ≠ "印度" ∧ p.2 ≠ "印度尼西亚") :
    ∃ t1 t2 t3, extract_location_from_text dynamic summary text =
      t1 ++ ("印度" :: (t2 ++ ("印度尼西亚" :: t3))) := by
  obtain ⟨xs, ys, zs, hS⟩ := scan_keywords_decomp text hbig
  have hnd : (scan_keywords text).Nodup :=
    scan_foldl_nodup text location_keywords [] (by simp)
  have hl1 : List.lookup "印度" (dictMerge manual_region_to_region dynamic) = none := by
    rw [lookup_dictMerge _ _ _ (fun p hp => (hdyn p hp).1)]
    decide
  have hl2 : List.lookup "印度尼西亚"
      (dictMerge manual_region_to_region dynamic) = none := by
    rw [lookup_dictMerge _ _ _ (fun p hp => (hdyn p hp).2.1)]
    decide
  have habs : ∀ r ∈ (["东爪哇", "塞梅鲁"] : List String),
      strContains text r = false → r ∉ scan_keywords text := by
    intro r hr hrf hmem
    rcases scan_foldl_mem text location_keywords [] r hmem with h | ⟨kw, hkw, hc, hn⟩
    · simp at h
    · have hkweq : kw = r := by
        have hfact : ∀ k ∈ location_keywords,
            ∀ r2 ∈ (["东爪哇", "塞梅鲁"] : List String),
            normalize_location k = some r2 → k = r2 := by decide
        exact hfact kw hkw r hr hn
      rw [hkweq, hrf] at hc
      exact Bool.noConfusion hc
  have hdj2 : "东爪哇" ∉ scan_keywords text := habs _ (by simp) hdj
  have hsm2 : "塞梅鲁" ∉ scan_keywords text := habs _ (by simp) hsm
  have hhs1 : has_specific_region "印度" (scan_keywords text) = false := by
    refine has_specific_region_eq_false _ _ ?_
    intro rc hrc h2
    have hfact : ∀ rc2 ∈ location_hierarchy, rc2.2 ≠ "印度" := by decide
    exact absurd h2 (hfact rc hrc)
  have hhs2 : has_specific_region "印度尼西亚" (scan_keywords text) = false := by
    refine has_specific_region_eq_false _ _ ?_
    intro rc hrc h2
    have hfact : ∀ rc2 ∈ location_hierarchy, rc2.2 = "印度尼西亚" →
        rc2.1 = "东爪哇" ∨ rc2.1 = "塞梅鲁" := by decide
    rcases hfact rc hrc h2 with h | h
    · rw [h]; exact hdj2
    · rw [h]; exact hsm2
  have hk1 : keepsLoc (dictMerge manual_region_to_region dynamic)
      (scan_keywords text) "印度" = true := by
    simp [keepsLoc, hl1, location_hierarchy, List.lookup, hhs1]
  have hk2 : keepsLoc (dictMerge manual_region_to_region dynamic)
      (scan_keywords text) "印度尼西亚" = true := by
    simp [keepsLoc, hl2, location_hierarchy, List.lookup, hhs2]
  obtain ⟨t1, t2, t3, hfold⟩ := filter_foldl_keeps_order
      (dictMerge manual_region_to_region dynamic) (scan_keywords text)
      "印度" "印度尼西亚" xs ys zs hS hnd hk1 hk2
  have hScne : scan_keywords text ≠ [] := by
    rw [hS]; simp
  have hcoreS : filterCore dynamic (scan_keywords text) =
      t1 ++ ("印度" :: (t2 ++ ("印度尼西亚" :: t3))) := hfold
  have hcorene : filterCore dynamic (scan_keywords text) ≠ [] := by
    rw [hcoreS]; simp
  have hfr : filter_redundant_locations dynamic (scan_keywords text) =
      t1 ++ ("印度" :: (t2 ++ ("印度尼西亚" :: t3))) := by
    unfold filter_redundant_locations
    rw [if_neg hScne, if_neg hcorene, hcoreS]
  refine ⟨t1, t2, t3, ?_⟩
  simp only [extract_location_from_text]
  rw [if_neg hScne, hfr, if_neg (by simp)]

theorem c10_substring_india_witness :
    ∃ t1 t2 t3, extract_location_from_text [] none "印度尼西亚" =
      t1 ++ ("印度" :: (t2 ++ ("印度尼西亚" :: t3))) :=
  c10_substring_india [] none "印度尼西亚" (by decide) (by decide) (by decide)
    (fun p hp => absurd hp (List.not_mem_nil p))
